import Mathlib

/-!
Verification of the polygon-metre time-signature visualizer.

The repository contains two near-duplicate implementations of the same core
(`src/polygonal_metre.py` and `src/signature_visualizer.py`).  This file gives
a shallow embedding of their computational core over exact rationals:

* the timeline builders (`_get_segments` of each file),
* the per-slice polygon fill logic (`make_polygon_filler`),
* the transition-preview timing (`_preview_clip`),
* the progress-indicator color rule (`_bar_clip`),
* the "next"-layer suppression guards (`_next_clip` / `_preview_clip`),
* the acos-based preview opacity curve (over the reals).

Times and tempos are rationals; Python float `%` on nonnegative operands is
modeled by `qmod`, Python `int(...)` truncation by `pyInt`.
-/

namespace PolygonMetre

/-- A segment descriptor from the input JSON `map` list:
`{"sig": [beatsPerBar, beatUnit], "bpm": tempo, "bars": barCount}`. -/
structure Desc where
  sig : ℕ × ℕ
  bpm : ℚ
  bars : ℕ
deriving DecidableEq

/-- The `next` field of a segment dict in `polygonal_metre.py` as left by
`_get_segments`: `None`, the partial info dict `{'sig': ..., 'bpm': ...}`
written into the previous segment during the loop, or the full dummy
(terminal) segment dict written into the last authored segment. -/
inductive PMLink where
  | noLink : PMLink
  | sigInfo : (ℕ × ℕ) → ℚ → PMLink
  | dummyLink : ℚ → ℚ → ℚ → (ℕ × ℕ) → ℚ → PMLink
deriving DecidableEq

/-- A segment dict of `polygonal_metre.py`:
`{'start', 'end', 'dur', 'sig', 'bpm', 'next'}`. -/
structure SegPM where
  start : ℚ
  endTime : ℚ
  dur : ℚ
  sig : ℕ × ℕ
  bpm : ℚ
  next : PMLink
deriving DecidableEq

/-- A segment dict of `signature_visualizer.py`:
`{'start', 'end', 'dur', 'sig', 'bpm', 'last'}`. -/
structure SegSV where
  start : ℚ
  endTime : ℚ
  dur : ℚ
  sig : ℕ × ℕ
  bpm : ℚ
  last : Bool
deriving DecidableEq

/-- The fields shared by the two segment representations, used to compare the
two builders. -/
structure SegCore where
  start : ℚ
  endTime : ℚ
  dur : ℚ
  sig : ℕ × ℕ
  bpm : ℚ
deriving DecidableEq

def corePM (s : SegPM) : SegCore := ⟨s.start, s.endTime, s.dur, s.sig, s.bpm⟩

def coreSV (s : SegSV) : SegCore := ⟨s.start, s.endTime, s.dur, s.sig, s.bpm⟩

/-- `segments[i-1]['next'] = lnk` for the last appended segment (a no-op on an
empty list, mirroring the `if segments:` guard in `polygonal_metre.py`). -/
def setLastNext (segs : List SegPM) (lnk : PMLink) : List SegPM :=
  match segs.getLast? with
  | none => segs
  | some s => segs.dropLast ++ [⟨s.start, s.endTime, s.dur, s.sig, s.bpm, lnk⟩]

/-- The loop of `_get_segments` in `polygonal_metre.py`.  The third component
carries the Python loop variables `bar_duration`, `segment_duration`, `sig`,
`bpm` that remain bound after the loop (`none` when the loop never ran, in
which case the code raises an unbound-name error at the dummy construction). -/
def pmLoop : List Desc → List SegPM → ℚ → Option (ℚ × ℚ × (ℕ × ℕ) × ℚ) →
    List SegPM × ℚ × Option (ℚ × ℚ × (ℕ × ℕ) × ℚ)
  | [], segs, currentTime, vars => (segs, currentTime, vars)
  | d :: rest, segs, currentTime, _ =>
      let beatsPerBar : ℚ := (d.sig.1 : ℚ)
      let barDuration : ℚ := beatsPerBar * 60 / d.bpm
      let segmentDuration : ℚ := (d.bars : ℚ) * barDuration
      let segmentEnd : ℚ := currentTime + segmentDuration
      let linked := setLastNext segs (PMLink.sigInfo d.sig d.bpm)
      pmLoop rest
        (linked ++ [⟨currentTime, segmentEnd, segmentDuration, d.sig, d.bpm, PMLink.noLink⟩])
        segmentEnd (some (barDuration, segmentDuration, d.sig, d.bpm))

/-- `_get_segments` of `polygonal_metre.py`: builds the authored segments, then
appends the dummy final bar and returns `(segments, final_time)` with
`final_time = current_time + segment_duration`.  Returns `none` on the empty
descriptor list (the Python code raises before producing anything). -/
def getSegmentsPM (ds : List Desc) : Option (List SegPM × ℚ) :=
  match pmLoop ds [] 0 none with
  | (_, _, none) => none
  | (segs, currentTime, some (barDuration, segmentDuration, sig, bpm)) =>
      let dummy : SegPM :=
        ⟨currentTime, currentTime + barDuration, barDuration, sig, bpm, PMLink.noLink⟩
      some (setLastNext segs
          (PMLink.dummyLink currentTime (currentTime + barDuration) barDuration sig bpm)
          ++ [dummy],
        currentTime + segmentDuration)

/-- The generator loop of `_get_segments` in `signature_visualizer.py`.  The
third component carries the loop variables `sig`, `bpm`, `segment_duration`
still bound after the loop. -/
def svLoop : List Desc → List SegSV → ℚ → Option ((ℕ × ℕ) × ℚ × ℚ) →
    List SegSV × ℚ × Option ((ℕ × ℕ) × ℚ × ℚ)
  | [], segs, currentTime, vars => (segs, currentTime, vars)
  | d :: rest, segs, currentTime, _ =>
      let beatDuration : ℚ := 60 / d.bpm
      let segmentDuration : ℚ := (d.bars : ℚ) * (d.sig.1 : ℚ) * beatDuration
      svLoop rest
        (segs ++ [⟨currentTime, currentTime + segmentDuration, segmentDuration, d.sig, d.bpm, false⟩])
        (currentTime + segmentDuration) (some (d.sig, d.bpm, segmentDuration))

/-- `_get_segments` of `signature_visualizer.py` (the generator, fully
consumed): authored segments with `last = False`, then the dummy final bar
with `last = True` and duration `sig[0]*60/bpm`, then the final time
`current_time + segment_duration`. -/
def getSegmentsSV (ds : List Desc) : Option (List SegSV × ℚ) :=
  match svLoop ds [] 0 none with
  | (_, _, none) => none
  | (segs, currentTime, some (sig, bpm, segmentDuration)) =>
      some (segs ++
          [⟨currentTime, currentTime + (sig.1 : ℚ) * 60 / bpm, (sig.1 : ℚ) * 60 / bpm, sig, bpm, true⟩],
        currentTime + segmentDuration)

/-- One bar's duration of a descriptor, `beats_per_bar * 60 / bpm`
(as grouped in `polygonal_metre.py`). -/
def pmBar (d : Desc) : ℚ := (d.sig.1 : ℚ) * 60 / d.bpm

/-- An authored segment's duration, `bars * bar_duration`
(as grouped in `polygonal_metre.py`). -/
def pmDur (d : Desc) : ℚ := (d.bars : ℚ) * pmBar d

/-- An authored segment's duration, `bars * beats_per_bar * beat_duration`
(as grouped in `signature_visualizer.py`). -/
def svDur (d : Desc) : ℚ := (d.bars : ℚ) * (d.sig.1 : ℚ) * (60 / d.bpm)

/-- Running total of authored segment durations (`polygonal_metre` grouping). -/
def pmTotal (ds : List Desc) : ℚ := (ds.map pmDur).sum

/-- Running total of authored segment durations (`signature_visualizer` grouping). -/
def svTotal (ds : List Desc) : ℚ := (ds.map svDur).sum

/-- Closed form of the authored segment list built by `pmLoop` starting at
running total `c`: each segment is linked (via `sigInfo`) to its successor
descriptor, the final one still carries `noLink`. -/
def pmAuth : ℚ → List Desc → List SegPM
  | _, [] => []
  | c, [d] => [⟨c, c + pmDur d, pmDur d, d.sig, d.bpm, PMLink.noLink⟩]
  | c, d :: e :: rest =>
      ⟨c, c + pmDur d, pmDur d, d.sig, d.bpm, PMLink.sigInfo e.sig e.bpm⟩ ::
        pmAuth (c + pmDur d) (e :: rest)

/-- Closed form of the authored segment list built by `svLoop`. -/
def svAuth : ℚ → List Desc → List SegSV
  | _, [] => []
  | c, d :: rest =>
      ⟨c, c + svDur d, svDur d, d.sig, d.bpm, false⟩ :: svAuth (c + svDur d) rest

/-- The last descriptor of the nonempty list `d :: rest`. -/
def lastDesc : Desc → List Desc → Desc
  | d, [] => d
  | _, e :: rest => lastDesc e rest

theorem lastDesc_eq_getLast (d : Desc) (rest : List Desc) :
    lastDesc d rest = (d :: rest).getLast (List.cons_ne_nil d rest) := by
  induction rest generalizing d with
  | nil => rfl
  | cons e rest2 ih => simpa [lastDesc] using ih e

theorem pmDur_eq_svDur (d : Desc) : pmDur d = svDur d := by
  unfold pmDur svDur pmBar
  ring

theorem pmTotal_eq_svTotal (ds : List Desc) : pmTotal ds = svTotal ds := by
  unfold pmTotal svTotal
  induction ds with
  | nil => rfl
  | cons d rest ih => simp [ih, pmDur_eq_svDur]

theorem setLastNext_nil (lnk : PMLink) : setLastNext [] lnk = [] := rfl

theorem setLastNext_concat (segs : List SegPM) (s : SegPM) (lnk : PMLink) :
    setLastNext (segs ++ [s]) lnk =
      segs ++ [⟨s.start, s.endTime, s.dur, s.sig, s.bpm, lnk⟩] := by
  unfold setLastNext
  rw [List.getLast?_concat, List.dropLast_concat]

theorem pmLoop_cons (d : Desc) (rest : List Desc) (segs : List SegPM) (c : ℚ)
    (v : Option (ℚ × ℚ × (ℕ × ℕ) × ℚ)) :
    pmLoop (d :: rest) segs c v =
      pmLoop rest
        (setLastNext segs (PMLink.sigInfo d.sig d.bpm) ++
          [⟨c, c + (d.bars : ℚ) * ((d.sig.1 : ℚ) * 60 / d.bpm),
            (d.bars : ℚ) * ((d.sig.1 : ℚ) * 60 / d.bpm), d.sig, d.bpm, PMLink.noLink⟩])
        (c + (d.bars : ℚ) * ((d.sig.1 : ℚ) * 60 / d.bpm))
        (some ((d.sig.1 : ℚ) * 60 / d.bpm, (d.bars : ℚ) * ((d.sig.1 : ℚ) * 60 / d.bpm),
          d.sig, d.bpm)) := rfl

theorem pmLoop_eq (rest : List Desc) : ∀ (d : Desc) (segs : List SegPM) (c : ℚ)
    (v : Option (ℚ × ℚ × (ℕ × ℕ) × ℚ)),
    pmLoop (d :: rest) segs c v =
      (setLastNext segs (PMLink.sigInfo d.sig d.bpm) ++ pmAuth c (d :: rest),
       c + pmTotal (d :: rest),
       some (pmBar (lastDesc d rest), pmDur (lastDesc d rest),
         (lastDesc d rest).sig, (lastDesc d rest).bpm)) := by
  induction rest with
  | nil =>
      intro d segs c v
      simp [pmLoop, pmAuth, pmTotal, lastDesc, pmDur, pmBar]
  | cons e rest2 ih =>
      intro d segs c v
      rw [pmLoop_cons, ih]
      rw [setLastNext_concat]
      simp [pmAuth, pmTotal, lastDesc, pmDur, pmBar, List.append_assoc, add_assoc]

theorem svLoop_eq (rest : List Desc) : ∀ (d : Desc) (segs : List SegSV) (c : ℚ)
    (v : Option ((ℕ × ℕ) × ℚ × ℚ)),
    svLoop (d :: rest) segs c v =
      (segs ++ svAuth c (d :: rest),
       c + svTotal (d :: rest),
       some ((lastDesc d rest).sig, (lastDesc d rest).bpm, svDur (lastDesc d rest))) := by
  induction rest with
  | nil =>
      intro d segs c v
      simp [svLoop, svAuth, svTotal, lastDesc, svDur]
  | cons e rest2 ih =>
      intro d segs c v
      rw [show svLoop (d :: e :: rest2) segs c v =
            svLoop (e :: rest2)
              (segs ++ [⟨c, c + (d.bars : ℚ) * (d.sig.1 : ℚ) * (60 / d.bpm),
                (d.bars : ℚ) * (d.sig.1 : ℚ) * (60 / d.bpm), d.sig, d.bpm, false⟩])
              (c + (d.bars : ℚ) * (d.sig.1 : ℚ) * (60 / d.bpm))
              (some (d.sig, d.bpm, (d.bars : ℚ) * (d.sig.1 : ℚ) * (60 / d.bpm))) from rfl]
      rw [ih]
      simp [svAuth, svTotal, lastDesc, svDur, List.append_assoc, add_assoc]

theorem getSegmentsPM_cons (d : Desc) (rest : List Desc) :
    getSegmentsPM (d :: rest) =
      some (setLastNext (pmAuth 0 (d :: rest))
          (PMLink.dummyLink (pmTotal (d :: rest))
            (pmTotal (d :: rest) + pmBar (lastDesc d rest))
            (pmBar (lastDesc d rest)) (lastDesc d rest).sig (lastDesc d rest).bpm)
          ++ [⟨pmTotal (d :: rest), pmTotal (d :: rest) + pmBar (lastDesc d rest),
              pmBar (lastDesc d rest), (lastDesc d rest).sig, (lastDesc d rest).bpm,
              PMLink.noLink⟩],
        pmTotal (d :: rest) + pmDur (lastDesc d rest)) := by
  unfold getSegmentsPM
  rw [pmLoop_eq]
  simp [setLastNext_nil]

theorem getSegmentsSV_cons (d : Desc) (rest : List Desc) :
    getSegmentsSV (d :: rest) =
      some (svAuth 0 (d :: rest) ++
          [⟨svTotal (d :: rest),
            svTotal (d :: rest) + ((lastDesc d rest).sig.1 : ℚ) * 60 / (lastDesc d rest).bpm,
            ((lastDesc d rest).sig.1 : ℚ) * 60 / (lastDesc d rest).bpm,
            (lastDesc d rest).sig, (lastDesc d rest).bpm, true⟩],
        svTotal (d :: rest) + svDur (lastDesc d rest)) := by
  unfold getSegmentsSV
  rw [svLoop_eq]
  simp

/-- Closed form of the authored segment cores, shared by both builders. -/
def coreAuth : ℚ → List Desc → List SegCore
  | _, [] => []
  | c, d :: rest => ⟨c, c + svDur d, svDur d, d.sig, d.bpm⟩ :: coreAuth (c + svDur d) rest

theorem svAuth_map_core (c : ℚ) (ds : List Desc) :
    (svAuth c ds).map coreSV = coreAuth c ds := by
  induction ds generalizing c with
  | nil => rfl
  | cons d rest ih => simp [svAuth, coreAuth, coreSV, ih]

theorem pmAuth_map_core (c : ℚ) (ds : List Desc) :
    (pmAuth c ds).map corePM = coreAuth c ds := by
  induction ds generalizing c with
  | nil => rfl
  | cons d rest ih =>
      cases rest with
      | nil => simp [pmAuth, coreAuth, corePM, pmDur_eq_svDur]
      | cons e rest2 => simp [pmAuth, coreAuth, corePM, pmDur_eq_svDur, ih]

theorem setLastNext_map_core (segs : List SegPM) (lnk : PMLink) :
    (setLastNext segs lnk).map corePM = segs.map corePM := by
  rcases List.eq_nil_or_concat' segs with rfl | ⟨xs, x, rfl⟩
  · rfl
  · rw [setLastNext_concat]
    simp [corePM]

theorem coreAuth_length (c : ℚ) (ds : List Desc) :
    (coreAuth c ds).length = ds.length := by
  induction ds generalizing c with
  | nil => rfl
  | cons d rest ih => simp [coreAuth, ih]

theorem svAuth_length (c : ℚ) (ds : List Desc) :
    (svAuth c ds).length = ds.length := by
  induction ds generalizing c with
  | nil => rfl
  | cons d rest ih => simp [svAuth, ih]

theorem pmAuth_length (c : ℚ) (ds : List Desc) :
    (pmAuth c ds).length = ds.length := by
  induction ds generalizing c with
  | nil => rfl
  | cons d rest ih =>
      cases rest with
      | nil => rfl
      | cons e rest2 => simp [pmAuth, ih]

theorem setLastNext_length (segs : List SegPM) (lnk : PMLink) :
    (setLastNext segs lnk).length = segs.length := by
  rcases List.eq_nil_or_concat' segs with rfl | ⟨xs, x, rfl⟩
  · rfl
  · rw [setLastNext_concat]
    simp

theorem coreAuth_cons (c : ℚ) (d : Desc) (rest : List Desc) :
    coreAuth c (d :: rest) =
      ⟨c, c + svDur d, svDur d, d.sig, d.bpm⟩ :: coreAuth (c + svDur d) rest := rfl

theorem svAuth_cons (c : ℚ) (d : Desc) (rest : List Desc) :
    svAuth c (d :: rest) =
      ⟨c, c + svDur d, svDur d, d.sig, d.bpm, false⟩ :: svAuth (c + svDur d) rest := rfl

theorem coreAuth_getLast (c : ℚ) (d : Desc) (rest : List Desc) :
    (coreAuth c (d :: rest)).getLast? =
      some ⟨c + svTotal (d :: rest) - svDur (lastDesc d rest), c + svTotal (d :: rest),
        svDur (lastDesc d rest), (lastDesc d rest).sig, (lastDesc d rest).bpm⟩ := by
  induction rest generalizing c d with
  | nil =>
      simp [coreAuth, svTotal, lastDesc, SegCore.mk.injEq]
  | cons e rest2 ih =>
      rw [coreAuth_cons, coreAuth_cons, List.getLast?_cons_cons, ← coreAuth_cons, ih]
      simp only [svTotal, lastDesc, List.map_cons, List.sum_cons, Option.some.injEq,
        SegCore.mk.injEq, and_true, true_and]
      constructor
      · ring
      · ring

theorem svAuth_getLast (c : ℚ) (d : Desc) (rest : List Desc) :
    (svAuth c (d :: rest)).getLast? =
      some ⟨c + svTotal (d :: rest) - svDur (lastDesc d rest), c + svTotal (d :: rest),
        svDur (lastDesc d rest), (lastDesc d rest).sig, (lastDesc d rest).bpm, false⟩ := by
  induction rest generalizing c d with
  | nil =>
      simp [svAuth, svTotal, lastDesc, SegSV.mk.injEq]
  | cons e rest2 ih =>
      rw [svAuth_cons, svAuth_cons, List.getLast?_cons_cons, ← svAuth_cons, ih]
      simp only [svTotal, lastDesc, List.map_cons, List.sum_cons, Option.some.injEq,
        SegSV.mk.injEq, and_true, true_and]
      constructor
      · ring
      · ring

theorem coreAuth_chain (c : ℚ) (ds : List Desc) :
    List.Chain' (fun a b : SegCore => a.endTime = b.start) (coreAuth c ds) := by
  induction ds generalizing c with
  | nil => simp [coreAuth]
  | cons d rest ih =>
      cases rest with
      | nil => simp [coreAuth]
      | cons e rest2 =>
          rw [coreAuth_cons, coreAuth_cons, List.chain'_cons]
          exact ⟨rfl, by rw [← coreAuth_cons]; exact ih _⟩

theorem coreAuth_chain_concat (c : ℚ) (d : Desc) (rest : List Desc) (x : SegCore)
    (hx : x.start = c + svTotal (d :: rest)) :
    List.Chain' (fun a b : SegCore => a.endTime = b.start) (coreAuth c (d :: rest) ++ [x]) := by
  rw [List.chain'_append]
  refine ⟨coreAuth_chain _ _, List.chain'_singleton _, ?_⟩
  intro y hy z hz
  rw [coreAuth_getLast] at hy
  simp only [Option.mem_def, Option.some.injEq] at hy
  simp only [List.head?_cons, Option.mem_def, Option.some.injEq] at hz
  subst hy
  subst hz
  exact hx.symm

theorem setLastNext_cons (a : SegPM) (l : List SegPM) (lnk : PMLink) (h : l ≠ []) :
    setLastNext (a :: l) lnk = a :: setLastNext l lnk := by
  rcases List.eq_nil_or_concat' l with rfl | ⟨xs, x, rfl⟩
  · exact absurd rfl h
  · rw [show a :: (xs ++ [x]) = (a :: xs) ++ [x] from rfl, setLastNext_concat, setLastNext_concat]
    rfl

theorem pmAuth_ne_nil (c : ℚ) (d : Desc) (rest : List Desc) :
    pmAuth c (d :: rest) ≠ [] := by
  intro h
  have := pmAuth_length c (d :: rest)
  rw [h] at this
  simp at this

theorem bodyPM_next (c : ℚ) (d : Desc) (rest : List Desc) (lnk : PMLink)
    (hlnk : lnk ≠ PMLink.noLink) :
    ∀ s ∈ setLastNext (pmAuth c (d :: rest)) lnk, s.next ≠ PMLink.noLink := by
  induction rest generalizing c d with
  | nil =>
      intro s hs
      simp only [pmAuth, setLastNext, List.getLast?_singleton, List.dropLast_single,
        List.nil_append, List.mem_singleton] at hs
      subst hs
      exact hlnk
  | cons e rest2 ih =>
      intro s hs
      rw [show pmAuth c (d :: e :: rest2) =
            ⟨c, c + pmDur d, pmDur d, d.sig, d.bpm, PMLink.sigInfo e.sig e.bpm⟩ ::
              pmAuth (c + pmDur d) (e :: rest2) from rfl,
          setLastNext_cons _ _ _ (pmAuth_ne_nil _ _ _)] at hs
      rcases List.mem_cons.mp hs with rfl | hs2
      · simp
      · exact ih _ _ s hs2

theorem svAuth_last_false (c : ℚ) (ds : List Desc) :
    ∀ s ∈ svAuth c ds, s.last = false := by
  induction ds generalizing c with
  | nil => intro s hs; simp [svAuth] at hs
  | cons d rest ih =>
      intro s hs
      rw [show svAuth c (d :: rest) =
            ⟨c, c + svDur d, svDur d, d.sig, d.bpm, false⟩ :: svAuth (c + svDur d) rest
          from rfl] at hs
      rcases List.mem_cons.mp hs with rfl | hs2
      · rfl
      · exact ih _ s hs2

/-- The suppression guard of `_next_clip`, `_bar_clip` and `_preview_clip` in
`polygonal_metre.py`, evaluated at clip-creation time for segment `i`:
the driver has just set segment `i`'s `next` to `segs[i+1]` (or `None`), while
`segs[i+1]` still carries the `next` value left by `_get_segments`; the clip is
produced iff `segs[i+1]` exists and that value is not `None`. -/
def nextNextGuardPM (segs : List SegPM) (i : ℕ) : Bool :=
  match segs[i+1]? with
  | none => false
  | some nxt =>
      match nxt.next with
      | PMLink.noLink => false
      | _ => true

/-- The suppression guard of `_next_clip` and `_preview_clip` in
`signature_visualizer.py` for segment `i`: a real clip is produced iff a
successor exists and its `last` flag is not `True`. -/
def nextGuardSV (segs : List SegSV) (i : ℕ) : Bool :=
  match segs[i+1]? with
  | none => false
  | some nxt => !nxt.last

theorem segsPM_parts (d : Desc) (rest : List Desc) (segs : List SegPM) (ft : ℚ)
    (h : getSegmentsPM (d :: rest) = some (segs, ft)) :
    segs = setLastNext (pmAuth 0 (d :: rest))
        (PMLink.dummyLink (pmTotal (d :: rest)) (pmTotal (d :: rest) + pmBar (lastDesc d rest))
          (pmBar (lastDesc d rest)) (lastDesc d rest).sig (lastDesc d rest).bpm)
        ++ [⟨pmTotal (d :: rest), pmTotal (d :: rest) + pmBar (lastDesc d rest),
            pmBar (lastDesc d rest), (lastDesc d rest).sig, (lastDesc d rest).bpm,
            PMLink.noLink⟩] ∧
    ft = pmTotal (d :: rest) + pmDur (lastDesc d rest) := by
  rw [getSegmentsPM_cons] at h
  simp only [Option.some.injEq, Prod.mk.injEq] at h
  exact ⟨h.1.symm, h.2.symm⟩

theorem segsSV_parts (d : Desc) (rest : List Desc) (segs : List SegSV) (ft : ℚ)
    (h : getSegmentsSV (d :: rest) = some (segs, ft)) :
    segs = svAuth 0 (d :: rest) ++
        [⟨svTotal (d :: rest),
          svTotal (d :: rest) + ((lastDesc d rest).sig.1 : ℚ) * 60 / (lastDesc d rest).bpm,
          ((lastDesc d rest).sig.1 : ℚ) * 60 / (lastDesc d rest).bpm,
          (lastDesc d rest).sig, (lastDesc d rest).bpm, true⟩] ∧
    ft = svTotal (d :: rest) + svDur (lastDesc d rest) := by
  rw [getSegmentsSV_cons] at h
  simp only [Option.some.injEq, Prod.mk.injEq] at h
  exact ⟨h.1.symm, h.2.symm⟩

theorem segsPM_map_core (d : Desc) (rest : List Desc) (segs : List SegPM) (ft : ℚ)
    (h : getSegmentsPM (d :: rest) = some (segs, ft)) :
    segs.map corePM = coreAuth 0 (d :: rest) ++
      [⟨svTotal (d :: rest), svTotal (d :: rest) + pmBar (lastDesc d rest),
        pmBar (lastDesc d rest), (lastDesc d rest).sig, (lastDesc d rest).bpm⟩] := by
  obtain ⟨rfl, -⟩ := segsPM_parts d rest segs ft h
  rw [List.map_append, setLastNext_map_core, pmAuth_map_core]
  simp [corePM, pmTotal_eq_svTotal]

theorem segsSV_map_core (d : Desc) (rest : List Desc) (segs : List SegSV) (ft : ℚ)
    (h : getSegmentsSV (d :: rest) = some (segs, ft)) :
    segs.map coreSV = coreAuth 0 (d :: rest) ++
      [⟨svTotal (d :: rest), svTotal (d :: rest) + pmBar (lastDesc d rest),
        pmBar (lastDesc d rest), (lastDesc d rest).sig, (lastDesc d rest).bpm⟩] := by
  obtain ⟨rfl, -⟩ := segsSV_parts d rest segs ft h
  rw [List.map_append, svAuth_map_core]
  simp [coreSV, pmBar]

theorem segsPM_length (d : Desc) (rest : List Desc) (segs : List SegPM) (ft : ℚ)
    (h : getSegmentsPM (d :: rest) = some (segs, ft)) :
    segs.length = rest.length + 2 := by
  obtain ⟨rfl, -⟩ := segsPM_parts d rest segs ft h
  rw [List.length_append, setLastNext_length, pmAuth_length]
  simp

theorem segsSV_length (d : Desc) (rest : List Desc) (segs : List SegSV) (ft : ℚ)
    (h : getSegmentsSV (d :: rest) = some (segs, ft)) :
    segs.length = rest.length + 2 := by
  obtain ⟨rfl, -⟩ := segsSV_parts d rest segs ft h
  rw [List.length_append, svAuth_length]
  simp

theorem guardPM_iff (d : Desc) (rest : List Desc) (segs : List SegPM) (ft : ℚ)
    (h : getSegmentsPM (d :: rest) = some (segs, ft)) (i : ℕ) :
    nextNextGuardPM segs i = true ↔ i + 2 < segs.length := by
  have hlen := segsPM_length d rest segs ft h
  obtain ⟨hsegs, -⟩ := segsPM_parts d rest segs ft h
  set body := setLastNext (pmAuth 0 (d :: rest))
      (PMLink.dummyLink (pmTotal (d :: rest)) (pmTotal (d :: rest) + pmBar (lastDesc d rest))
        (pmBar (lastDesc d rest)) (lastDesc d rest).sig (lastDesc d rest).bpm) with hbody
  have hblen : body.length = rest.length + 1 := by
    rw [hbody, setLastNext_length, pmAuth_length]
    simp
  have hnext : ∀ s ∈ body, s.next ≠ PMLink.noLink := by
    rw [hbody]
    exact bodyPM_next 0 d rest _ (by simp)
  unfold nextNextGuardPM
  rw [hlen]
  rcases lt_trichotomy (i + 1) body.length with h1 | h1 | h1
  · rw [hsegs, List.getElem?_append_left h1, List.getElem?_eq_getElem h1]
    have hmem : body[i+1] ∈ body := List.getElem_mem h1
    have hne := hnext _ hmem
    constructor
    · intro _
      omega
    · intro _
      cases hb : body[i+1].next with
      | noLink => exact absurd hb hne
      | sigInfo g b => simp [hb]
      | dummyLink a b c e f => simp [hb]
  · rw [hsegs, List.getElem?_append_right (le_of_eq h1.symm), h1, Nat.sub_self]
    simp only [List.getElem?_cons_zero]
    constructor
    · intro hg
      simp at hg
    · intro hg
      omega
  · rw [hsegs, List.getElem?_append_right (le_of_lt h1)]
    have hnone : i + 1 - body.length ≠ 0 := by omega
    rw [List.getElem?_eq_none]
    · constructor
      · intro hg
        simp at hg
      · intro hg
        omega
    · simp only [List.length_singleton]
      omega

theorem guardSV_iff (d : Desc) (rest : List Desc) (segs : List SegSV) (ft : ℚ)
    (h : getSegmentsSV (d :: rest) = some (segs, ft)) (i : ℕ) :
    nextGuardSV segs i = true ↔ i + 2 < segs.length := by
  have hlen := segsSV_length d rest segs ft h
  obtain ⟨hsegs, -⟩ := segsSV_parts d rest segs ft h
  have hblen : (svAuth 0 (d :: rest)).length = rest.length + 1 := by
    rw [svAuth_length]
    simp
  unfold nextGuardSV
  rw [hlen]
  rcases lt_trichotomy (i + 1) (svAuth 0 (d :: rest)).length with h1 | h1 | h1
  · rw [hsegs, List.getElem?_append_left h1, List.getElem?_eq_getElem h1]
    have hmem := List.getElem_mem h1
    have hfalse := svAuth_last_false 0 (d :: rest) _ hmem
    constructor
    · intro _
      omega
    · intro _
      simp [hfalse]
  · rw [hsegs, List.getElem?_append_right (le_of_eq h1.symm), h1, Nat.sub_self]
    simp only [List.getElem?_cons_zero]
    constructor
    · intro hg
      simp at hg
    · intro hg
      omega
  · rw [hsegs, List.getElem?_append_right (le_of_lt h1)]
    have hnone : i + 1 - (svAuth 0 (d :: rest)).length ≠ 0 := by omega
    rw [List.getElem?_eq_none]
    · constructor
      · intro hg
        simp at hg
      · intro hg
        omega
    · simp only [List.length_singleton]
      omega

theorem segsPM_contig (d : Desc) (rest : List Desc) (segs : List SegPM) (ft : ℚ)
    (h : getSegmentsPM (d :: rest) = some (segs, ft)) (i : ℕ)
    (hi : i + 1 < segs.length) :
    segs[i].endTime = segs[i+1].start := by
  have hmap := segsPM_map_core d rest segs ft h
  have hchain : List.Chain' (fun a b : SegCore => a.endTime = b.start) (segs.map corePM) := by
    rw [hmap]
    exact coreAuth_chain_concat 0 d rest _ (by simp)
  have hchain2 : List.Chain' (fun a b : SegPM => a.endTime = b.start) segs := by
    rw [List.chain'_map] at hchain
    exact hchain
  rw [List.chain'_iff_get] at hchain2
  have := hchain2 i (by omega)
  simpa [List.get_eq_getElem] using this

/-- Python float `%` for a positive modulus: `a - b * floor (a / b)`. -/
def qmod (a b : ℚ) : ℚ := a - b * (⌊a / b⌋ : ℤ)

/-- Python `int(...)`: truncation toward zero. -/
def pyInt (q : ℚ) : ℤ := if 0 ≤ q then ⌊q⌋ else ⌈q⌉

theorem pyInt_of_nonneg (q : ℚ) (h : 0 ≤ q) : pyInt q = ⌊q⌋ := if_pos h

theorem qmod_nonneg (a b : ℚ) (hb : 0 < b) : 0 ≤ qmod a b := by
  unfold qmod
  rw [sub_nonneg]
  calc b * (⌊a / b⌋ : ℚ) ≤ b * (a / b) :=
        mul_le_mul_of_nonneg_left (Int.floor_le _) hb.le
    _ = a := by field_simp

theorem qmod_lt (a b : ℚ) (hb : 0 < b) : qmod a b < b := by
  unfold qmod
  have h1 : a / b < (⌊a / b⌋ : ℚ) + 1 := Int.lt_floor_add_one _
  have h2 : a < b * ((⌊a / b⌋ : ℚ) + 1) := by
    calc a = b * (a / b) := by field_simp
      _ < b * ((⌊a / b⌋ : ℚ) + 1) := by exact mul_lt_mul_of_pos_left h1 hb
  nlinarith [h2]

theorem qmod_eq_of_lt (a b : ℚ) (h0 : 0 ≤ a) (hab : a < b) : qmod a b = a := by
  have hb : 0 < b := lt_of_le_of_lt h0 hab
  have hf : ⌊a / b⌋ = 0 := by
    rw [Int.floor_eq_zero_iff]
    exact ⟨div_nonneg h0 hb.le, (div_lt_one hb).mpr hab⟩
  unfold qmod
  rw [hf]
  push_cast
  ring

theorem qmod_nat_mul (m : ℕ) (b : ℚ) (hb : b ≠ 0) : qmod ((m : ℚ) * b) b = 0 := by
  unfold qmod
  rw [mul_div_cancel_right₀ _ hb, Int.floor_natCast]
  push_cast
  ring

/-- Parameters captured by `make_polygon_filler` (identical logic in both
files; `signature_visualizer.py` fixes `accentColor = (0,100,255)`).  Note the
driver passes the whole segment duration as `bar_duration`. -/
structure FillParams where
  beatsPerBar : ℕ
  bpm : ℚ
  barDuration : ℚ
  accentColor : ℕ × ℕ × ℕ
  last : Bool
  fadeBeats : ℕ
deriving DecidableEq

/-- `beat_duration = 60 / bpm`. -/
def beatDuration (p : FillParams) : ℚ := 60 / p.bpm

/-- `beat_pos = (t % bar_duration) / beat_duration`. -/
def beatPos (p : FillParams) (t : ℚ) : ℚ := qmod t p.barDuration / beatDuration p

/-- `beat_phase = ((t % bar_duration) / beat_duration) % beats_per_bar`. -/
def beatPhase (p : FillParams) (t : ℚ) : ℚ :=
  qmod (qmod t p.barDuration / beatDuration p) (p.beatsPerBar : ℚ)

/-- `beats_ago` for slice `i` after the negative wrap-around
(`if beats_ago < 0: beats_ago += beats_per_bar`). -/
def sliceAgo (p : FillParams) (t : ℚ) (i : ℕ) : ℚ :=
  let a := beatPhase p t - (i : ℚ)
  if a < 0 then a + (p.beatsPerBar : ℚ) else a

/-- The body of the slice loop in `make_polygon_filler` for vertex `i`:
`none` when the slice is skipped (`continue`) or not filled, otherwise the RGB
fill color.  `fade = x` is the identity fade function of the source. -/
def sliceFill (p : FillParams) (t : ℚ) (i : ℕ) : Option (ℤ × ℤ × ℤ) :=
  if beatPos p t - (i : ℚ) < 0 ∧ p.last = false then none
  else
    let ago := sliceAgo p t i
    if ago < (p.fadeBeats : ℚ) ∨ p.last = true then
      let x := 1 - ago / (p.fadeBeats : ℚ)
      let brightness := pyInt (255 * x)
      let c0 : ℤ × ℤ × ℤ := (brightness, brightness, brightness)
      let c1 := if i = 0 then
          (pyInt ((p.accentColor.1 : ℚ) * x), pyInt ((p.accentColor.2.1 : ℚ) * x),
            pyInt ((p.accentColor.2.2 : ℚ) * x))
        else c0
      let c2 := if p.last = true then ((0 : ℤ), (0 : ℤ), (0 : ℤ)) else c1
      some c2
    else none

theorem sliceFill_of_not_skip (p : FillParams) (t : ℚ) (i : ℕ)
    (hskip : ¬(beatPos p t - (i : ℚ) < 0 ∧ p.last = false)) :
    sliceFill p t i =
      if sliceAgo p t i < (p.fadeBeats : ℚ) ∨ p.last = true then
        some (if p.last = true then ((0:ℤ),(0:ℤ),(0:ℤ)) else
          if i = 0 then
            (pyInt ((p.accentColor.1 : ℚ) * (1 - sliceAgo p t i / (p.fadeBeats : ℚ))),
              pyInt ((p.accentColor.2.1 : ℚ) * (1 - sliceAgo p t i / (p.fadeBeats : ℚ))),
              pyInt ((p.accentColor.2.2 : ℚ) * (1 - sliceAgo p t i / (p.fadeBeats : ℚ))))
          else (pyInt (255 * (1 - sliceAgo p t i / (p.fadeBeats : ℚ))),
            pyInt (255 * (1 - sliceAgo p t i / (p.fadeBeats : ℚ))),
            pyInt (255 * (1 - sliceAgo p t i / (p.fadeBeats : ℚ)))))
      else none := by
  unfold sliceFill
  rw [if_neg hskip]

theorem beatPhase_nonneg (p : FillParams) (t : ℚ) (hb : 1 ≤ p.beatsPerBar) :
    0 ≤ beatPhase p t := by
  unfold beatPhase
  exact qmod_nonneg _ _ (by exact_mod_cast hb)

theorem beatPhase_lt (p : FillParams) (t : ℚ) (hb : 1 ≤ p.beatsPerBar) :
    beatPhase p t < (p.beatsPerBar : ℚ) := by
  unfold beatPhase
  exact qmod_lt _ _ (by exact_mod_cast hb)

theorem sliceAgo_nonneg (p : FillParams) (t : ℚ) (i : ℕ) (hb : 1 ≤ p.beatsPerBar)
    (hi : i < p.beatsPerBar) : 0 ≤ sliceAgo p t i := by
  have h0 := beatPhase_nonneg p t hb
  have hiq : (i : ℚ) < (p.beatsPerBar : ℚ) := by exact_mod_cast hi
  unfold sliceAgo
  dsimp only
  split_ifs with h
  · linarith
  · linarith

/-- Evaluation of `beat_pos` and `beat_phase` at the start of bar `k` of a
segment of `bars` bars, with the whole segment duration passed as
`bar_duration` (as the drivers do). -/
theorem barStart_phase (beats bars fade k : ℕ) (bpm : ℚ) (accent : ℕ × ℕ × ℕ)
    (hbpm : 0 < bpm) (hb : 1 ≤ beats) (hk : k < bars) :
    beatPos ⟨beats, bpm, (bars : ℚ) * ((beats : ℚ) * 60 / bpm), accent, false, fade⟩
        ((k : ℚ) * (beats : ℚ) * (60 / bpm)) = (k : ℚ) * (beats : ℚ) ∧
    beatPhase ⟨beats, bpm, (bars : ℚ) * ((beats : ℚ) * 60 / bpm), accent, false, fade⟩
        ((k : ℚ) * (beats : ℚ) * (60 / bpm)) = 0 := by
  have hbd : (0:ℚ) < 60 / bpm := by positivity
  have hbq : (0:ℚ) < (beats : ℚ) := by exact_mod_cast hb
  have hkq : (k : ℚ) < (bars : ℚ) := by exact_mod_cast hk
  have ht0 : (0:ℚ) ≤ (k : ℚ) * (beats : ℚ) * (60 / bpm) := by positivity
  have hgroup : (bars : ℚ) * ((beats : ℚ) * 60 / bpm) = (bars : ℚ) * ((beats : ℚ) * (60 / bpm)) := by
    ring
  have htlt : (k : ℚ) * (beats : ℚ) * (60 / bpm) < (bars : ℚ) * ((beats : ℚ) * 60 / bpm) := by
    rw [hgroup]
    have hfac : (0:ℚ) < (beats : ℚ) * (60 / bpm) := mul_pos hbq hbd
    nlinarith [mul_pos (sub_pos.mpr hkq) hfac]
  have hmod : qmod ((k : ℚ) * (beats : ℚ) * (60 / bpm))
      ((bars : ℚ) * ((beats : ℚ) * 60 / bpm)) = (k : ℚ) * (beats : ℚ) * (60 / bpm) :=
    qmod_eq_of_lt _ _ ht0 htlt
  have hbdne : (60 / bpm : ℚ) ≠ 0 := ne_of_gt hbd
  have hpos : beatPos ⟨beats, bpm, (bars : ℚ) * ((beats : ℚ) * 60 / bpm), accent, false, fade⟩
      ((k : ℚ) * (beats : ℚ) * (60 / bpm)) = (k : ℚ) * (beats : ℚ) := by
    unfold beatPos beatDuration
    simp only [hmod]
    exact mul_div_cancel_right₀ _ hbdne
  refine ⟨hpos, ?_⟩
  show qmod (beatPos ⟨beats, bpm, (bars : ℚ) * ((beats : ℚ) * 60 / bpm), accent, false, fade⟩
      ((k : ℚ) * (beats : ℚ) * (60 / bpm))) ((beats : ℚ)) = 0
  rw [hpos]
  exact qmod_nat_mul k _ (ne_of_gt hbq)

/-- Slice states at the start of a non-first bar of a non-terminal segment:
slice 0 fully bright (full accent), the `fadeBeats - 1` preceding slices
partially faded, all others unfilled. -/
theorem barStart_sliceFill (beats bars fade k i : ℕ) (bpm : ℚ) (accent : ℕ × ℕ × ℕ)
    (hbpm : 0 < bpm) (hb : 1 ≤ beats) (hf : 1 ≤ fade) (hfb : fade ≤ beats)
    (hk1 : 1 ≤ k) (hk : k < bars) (hi : i < beats) :
    (i = 0 → sliceFill ⟨beats, bpm, (bars : ℚ) * ((beats : ℚ) * 60 / bpm), accent, false, fade⟩
        ((k : ℚ) * (beats : ℚ) * (60 / bpm)) i =
      some ((accent.1 : ℤ), (accent.2.1 : ℤ), (accent.2.2 : ℤ))) ∧
    (beats - fade < i →
      sliceFill ⟨beats, bpm, (bars : ℚ) * ((beats : ℚ) * 60 / bpm), accent, false, fade⟩
          ((k : ℚ) * (beats : ℚ) * (60 / bpm)) i =
        some (⌊(255:ℚ) * (1 - ((beats - i : ℕ) : ℚ) / (fade : ℚ))⌋,
          ⌊(255:ℚ) * (1 - ((beats - i : ℕ) : ℚ) / (fade : ℚ))⌋,
          ⌊(255:ℚ) * (1 - ((beats - i : ℕ) : ℚ) / (fade : ℚ))⌋) ∧
      0 < 1 - ((beats - i : ℕ) : ℚ) / (fade : ℚ) ∧
      1 - ((beats - i : ℕ) : ℚ) / (fade : ℚ) < 1) ∧
    (0 < i → i ≤ beats - fade →
      sliceFill ⟨beats, bpm, (bars : ℚ) * ((beats : ℚ) * 60 / bpm), accent, false, fade⟩
        ((k : ℚ) * (beats : ℚ) * (60 / bpm)) i = none) := by
  set p : FillParams := ⟨beats, bpm, (bars : ℚ) * ((beats : ℚ) * 60 / bpm), accent, false, fade⟩
    with hp
  set t : ℚ := (k : ℚ) * (beats : ℚ) * (60 / bpm) with ht
  obtain ⟨hpos, hphase⟩ := barStart_phase beats bars fade k bpm accent hbpm hb hk
  have hbq : (0:ℚ) < (beats : ℚ) := by exact_mod_cast hb
  have hfq : (0:ℚ) < (fade : ℚ) := by exact_mod_cast hf
  have hiq : (i : ℚ) < (beats : ℚ) := by exact_mod_cast hi
  have hkq : (1:ℚ) ≤ (k : ℚ) := by exact_mod_cast hk1
  have hskip : ¬(beatPos p t - (i : ℚ) < 0 ∧ p.last = false) := by
    rw [hpos]
    rintro ⟨hlt, -⟩
    nlinarith [mul_le_mul_of_nonneg_right hkq hbq.le]
  rw [sliceFill_of_not_skip p t i hskip]
  have hago : sliceAgo p t i = if (0:ℚ) - (i:ℚ) < 0 then (0:ℚ) - (i:ℚ) + (beats : ℚ) else 0 - i := by
    unfold sliceAgo
    rw [hphase]
  refine ⟨?_, ?_, ?_⟩
  · rintro rfl
    have hago0 : sliceAgo p t 0 = 0 := by
      rw [hago]
      norm_num
    rw [if_pos (Or.inl (by rw [hago0]; exact hfq))]
    rw [if_neg (by simp [hp]), if_pos rfl, hago0]
    have hx : (0:ℚ) / (fade : ℚ) = 0 := zero_div _
    simp only [hx, sub_zero, mul_one]
    rw [pyInt_of_nonneg _ (by positivity), pyInt_of_nonneg _ (by positivity),
      pyInt_of_nonneg _ (by positivity)]
    simp [Int.floor_natCast]
  · intro hlo
    have hipos : 0 < i := by omega
    have hiq0 : (0:ℚ) < (i : ℚ) := by exact_mod_cast hipos
    have hagoi : sliceAgo p t i = (beats : ℚ) - (i : ℚ) := by
      rw [hago, if_pos (by linarith)]
      ring
    have hcast : (beats : ℚ) - (i : ℚ) = ((beats - i : ℕ) : ℚ) := by
      rw [Nat.cast_sub hi.le]
    have hltn : beats - i < fade := by omega
    have hlt : ((beats - i : ℕ) : ℚ) < (fade : ℚ) := by exact_mod_cast hltn
    have hge1n : 1 ≤ beats - i := by omega
    have hge1 : (1:ℚ) ≤ ((beats - i : ℕ) : ℚ) := by exact_mod_cast hge1n
    have hgate : sliceAgo p t i < (p.fadeBeats : ℚ) := by
      rw [hagoi, hcast]
      exact hlt
    rw [if_pos (Or.inl hgate)]
    rw [if_neg (by simp [hp]), if_neg (by omega)]
    have hxpos : 0 < 1 - ((beats - i : ℕ) : ℚ) / (fade : ℚ) := by
      have := (div_lt_one hfq).mpr hlt
      linarith
    have hxlt : 1 - ((beats - i : ℕ) : ℚ) / (fade : ℚ) < 1 := by
      have : 0 < ((beats - i : ℕ) : ℚ) / (fade : ℚ) := div_pos (by linarith) hfq
      linarith
    refine ⟨?_, hxpos, hxlt⟩
    rw [hagoi, hcast]
    rw [show p.fadeBeats = fade from rfl]
    rw [pyInt_of_nonneg _ (by positivity)]
  · intro hipos hihi
    have hiq0 : (0:ℚ) < (i : ℚ) := by exact_mod_cast hipos
    have hagoi : sliceAgo p t i = (beats : ℚ) - (i : ℚ) := by
      rw [hago, if_pos (by linarith)]
      ring
    have hge : (fade : ℚ) ≤ (beats : ℚ) - (i : ℚ) := by
      have : (i : ℚ) ≤ ((beats - fade : ℕ) : ℚ) := by exact_mod_cast hihi
      rw [Nat.cast_sub hfb] at this
      linarith
    rw [if_neg]
    push_neg
    refine ⟨?_, by simp [hp]⟩
    rw [hagoi]
    rw [show p.fadeBeats = fade from rfl]
    linarith

theorem pmAuth_getLast_core (c : ℚ) (d : Desc) (rest : List Desc) :
    ((pmAuth c (d :: rest)).getLast?).map corePM =
      some ⟨c + svTotal (d :: rest) - svDur (lastDesc d rest), c + svTotal (d :: rest),
        svDur (lastDesc d rest), (lastDesc d rest).sig, (lastDesc d rest).bpm⟩ := by
  rw [← List.getLast?_map, pmAuth_map_core, coreAuth_getLast]

theorem setLastNext_getLast_core (A : List SegPM) (lnk : PMLink) :
    ((setLastNext A lnk).getLast?).map corePM = (A.getLast?).map corePM := by
  rw [← List.getLast?_map, ← List.getLast?_map, setLastNext_map_core]

/-- Inversion for a drawn slice of a non-terminal renderer: the wrapped
`beats_ago` lies in `[0, fadeBeats)` and the fill color is built by Python
`int(...)` truncation (floor, since the operands are nonnegative) of
`255 * x`, resp. of each accent channel times `x`, where
`x = 1 - beats_ago / fade_beats`. -/
theorem sliceFill_some_inv (p : FillParams) (t : ℚ) (i : ℕ) (c : ℤ × ℤ × ℤ)
    (hlast : p.last = false) (hb : 1 ≤ p.beatsPerBar) (hf : 1 ≤ p.fadeBeats)
    (hi : i < p.beatsPerBar) (hc : sliceFill p t i = some c) :
    0 ≤ sliceAgo p t i ∧ sliceAgo p t i < (p.fadeBeats : ℚ) ∧
    (i ≠ 0 → c = (⌊(255 : ℚ) * (1 - sliceAgo p t i / (p.fadeBeats : ℚ))⌋,
       ⌊(255 : ℚ) * (1 - sliceAgo p t i / (p.fadeBeats : ℚ))⌋,
       ⌊(255 : ℚ) * (1 - sliceAgo p t i / (p.fadeBeats : ℚ))⌋)) ∧
    (i = 0 → c = (⌊(p.accentColor.1 : ℚ) * (1 - sliceAgo p t i / (p.fadeBeats : ℚ))⌋,
       ⌊(p.accentColor.2.1 : ℚ) * (1 - sliceAgo p t i / (p.fadeBeats : ℚ))⌋,
       ⌊(p.accentColor.2.2 : ℚ) * (1 - sliceAgo p t i / (p.fadeBeats : ℚ))⌋)) := by
  have hnn := sliceAgo_nonneg p t i hb hi
  have hfq : (0:ℚ) < (p.fadeBeats : ℚ) := by exact_mod_cast hf
  by_cases hskip : beatPos p t - (i : ℚ) < 0 ∧ p.last = false
  · unfold sliceFill at hc
    rw [if_pos hskip] at hc
    exact absurd hc (by simp)
  · rw [sliceFill_of_not_skip p t i hskip] at hc
    by_cases hgate : sliceAgo p t i < (p.fadeBeats : ℚ) ∨ p.last = true
    · rw [if_pos hgate] at hc
      have hago : sliceAgo p t i < (p.fadeBeats : ℚ) := by
        rcases hgate with hg | hg
        · exact hg
        · rw [hlast] at hg
          exact absurd hg (by simp)
      have hx : 0 < 1 - sliceAgo p t i / (p.fadeBeats : ℚ) := by
        have := (div_lt_one hfq).mpr hago
        linarith
      rw [hlast] at hc
      rw [if_neg (by simp)] at hc
      refine ⟨hnn, hago, ?_, ?_⟩
      · intro hi0
        rw [if_neg hi0] at hc
        have hcc := (Option.some.inj hc).symm
        rw [hcc, pyInt_of_nonneg _ (by positivity)]
      · intro hi0
        rw [if_pos hi0] at hc
        have hcc := (Option.some.inj hc).symm
        rw [hcc, pyInt_of_nonneg _ (by positivity), pyInt_of_nonneg _ (by positivity),
          pyInt_of_nonneg _ (by positivity)]
    · rw [if_neg hgate] at hc
      exact absurd hc (by simp)

/-- `_preview_clip` timing in `polygonal_metre.py`:
`preview_end = segment['end']`,
`preview_start = preview_end - segment['sig'][0] * 60 / segment['bpm']`. -/
def previewTimesPM (s : SegPM) : ℚ × ℚ :=
  (s.endTime - (s.sig.1 : ℚ) * 60 / s.bpm, s.endTime)

/-- `_preview_clip` timing in `signature_visualizer.py`:
`preview_start = segment['next']['start'] - segment['sig'][0]*60/segment['bpm']`,
`preview_end = segment['next']['start']`. -/
def previewTimesSV (s nxt : SegSV) : ℚ × ℚ :=
  (nxt.start - (s.sig.1 : ℚ) * 60 / s.bpm, nxt.start)

/-- The rectangle color of `_bar_clip` in `polygonal_metre.py` at local time
`t`: accent when `t > segment['dur'] - segment['sig'][0] * 60 / segment['bpm']`,
neutral white otherwise. -/
def barClipColor (s : SegPM) (accent : ℕ × ℕ × ℕ) (t : ℚ) : ℕ × ℕ × ℕ :=
  if s.dur - (s.sig.1 : ℚ) * 60 / s.bpm < t then accent else (255, 255, 255)

/-- The acos argument `1 - 2*(t/(preview_end-preview_start))` of the preview
opacity curve in `polygonal_metre.py`, with `w` the preview window length. -/
noncomputable def acosArgument (w t : ℝ) : ℝ := 1 - 2 * (t / w)

/-- `opacity = (math.pi**-1) * math.acos(1 - 2*(t/(preview_end-preview_start)))`
from `_preview_clip` in `polygonal_metre.py` (`Real.arccos` is the total Lean
counterpart of `math.acos`). -/
noncomputable def previewOpacity (w t : ℝ) : ℝ :=
  Real.pi⁻¹ * Real.arccos (1 - 2 * (t / w))

/-- Claim C4 (confirmed): for the empty descriptor list, segment construction
fails in both implementations (the Python loop never binds the variables the
dummy-bar construction needs, so `_get_segments` raises before producing any
timeline), modeled as both builders returning `none`: no timeline, no final
time, no partial output. -/
theorem C4_empty_input : getSegmentsPM [] = none ∧ getSegmentsSV [] = none :=
  ⟨rfl, rfl⟩

/-- Claim C9 (confirmed): on every descriptor list the two timeline builders
agree on the shared segment fields — start, end, duration, signature, tempo —
of every segment including the synthetic terminal bar, and on the final time
(over exact rationals; the two files only group the arithmetic differently). -/
theorem C9_builder_equivalence (ds : List Desc) :
    (getSegmentsPM ds).map (fun p => (p.1.map corePM, p.2)) =
    (getSegmentsSV ds).map (fun p => (p.1.map coreSV, p.2)) := by
  cases ds with
  | nil => rfl
  | cons d rest =>
      rw [getSegmentsPM_cons, getSegmentsSV_cons]
      simp only [Option.map_some']
      rw [List.map_append, setLastNext_map_core, pmAuth_map_core, List.map_append,
        svAuth_map_core]
      simp [corePM, coreSV, pmBar, pmTotal_eq_svTotal, pmDur_eq_svDur]

/-- Claim C10 (confirmed): for the acos-easing preview renderer with window
`w > 0`, every local time `t` in `[0, w]` gives an acos argument
`1 - 2*(t/w)` inside `[-1, 1]` and an opacity in `[0, 1]`; for `t > w` the
argument drops below `-1`, outside the domain of `math.acos` (where the
Python frame function raises a domain error). -/
theorem C10_opacity (w t : ℝ) (hw : 0 < w) :
    (0 ≤ t → t ≤ w → -1 ≤ acosArgument w t ∧ acosArgument w t ≤ 1 ∧
      0 ≤ previewOpacity w t ∧ previewOpacity w t ≤ 1) ∧
    (w < t → acosArgument w t < -1) := by
  unfold acosArgument previewOpacity
  constructor
  · intro h0 h1
    have hdiv0 : 0 ≤ t / w := div_nonneg h0 hw.le
    have hdiv1 : t / w ≤ 1 := (div_le_one hw).mpr h1
    refine ⟨by linarith, by linarith, ?_, ?_⟩
    · exact mul_nonneg (inv_nonneg.mpr Real.pi_pos.le) (Real.arccos_nonneg _)
    · have harc := Real.arccos_le_pi (1 - 2 * (t / w))
      have hpinv : (0:ℝ) ≤ Real.pi⁻¹ := inv_nonneg.mpr Real.pi_pos.le
      calc Real.pi⁻¹ * Real.arccos (1 - 2 * (t / w)) ≤ Real.pi⁻¹ * Real.pi :=
            mul_le_mul_of_nonneg_left harc hpinv
        _ = 1 := inv_mul_cancel₀ (ne_of_gt Real.pi_pos)
  · intro hlt
    have : 1 < t / w := (one_lt_div hw).mpr hlt
    linarith

theorem C10_opacity_witness :
    (0:ℝ) < 2 ∧
    ((0 ≤ (1:ℝ) → (1:ℝ) ≤ 2 → -1 ≤ acosArgument 2 1 ∧ acosArgument 2 1 ≤ 1 ∧
      0 ≤ previewOpacity 2 1 ∧ previewOpacity 2 1 ≤ 1) ∧
     ((2:ℝ) < 1 → acosArgument 2 1 < -1)) :=
  ⟨by norm_num, C10_opacity 2 1 (by norm_num)⟩

/-- Claim C1 is refuted at a concrete input: for the single descriptor
(sig 4/4, bpm 120, bars 2) the running total — the end of the last authored
segment — is 4, but both builders return a final time of 8 (the code adds
`segment_duration` once more after the loop). -/
theorem C1_counterexample :
    getSegmentsPM [⟨(4,4),120,2⟩] =
      some ([⟨0,4,4,(4,4),120, PMLink.dummyLink 4 6 2 (4,4) 120⟩,
             ⟨4,6,2,(4,4),120, PMLink.noLink⟩], 8) ∧
    getSegmentsSV [⟨(4,4),120,2⟩] =
      some ([⟨0,4,4,(4,4),120,false⟩, ⟨4,6,2,(4,4),120,true⟩], 8) ∧
    (8 : ℚ) ≠ 4 := by
  refine ⟨?_, ?_, by norm_num⟩
  · rw [getSegmentsPM_cons]
    norm_num [pmAuth, pmTotal, pmDur, pmBar, lastDesc, setLastNext]
  · rw [getSegmentsSV_cons]
    norm_num [svAuth, svTotal, svDur, lastDesc]

/-- Claim C1 (amended): for every non-empty descriptor list the returned
`finalTime` equals the running total (the end of the last authored segment,
as the third conjunct records) PLUS that last authored segment's whole
duration once more — not the running total alone. -/
theorem C1_final_time (d : Desc) (rest : List Desc) (segs : List SegPM) (ft : ℚ)
    (segsS : List SegSV) (ftS : ℚ)
    (hP : getSegmentsPM (d :: rest) = some (segs, ft))
    (hS : getSegmentsSV (d :: rest) = some (segsS, ftS)) :
    ft = pmTotal (d :: rest) + pmDur (lastDesc d rest) ∧
    ftS = svTotal (d :: rest) + svDur (lastDesc d rest) ∧
    (segs.dropLast.getLast?).map (fun s => (s.endTime, s.dur)) =
      some (pmTotal (d :: rest), pmDur (lastDesc d rest)) := by
  obtain ⟨hsegs, hft⟩ := segsPM_parts d rest segs ft hP
  refine ⟨hft, (segsSV_parts d rest segsS ftS hS).2, ?_⟩
  rw [hsegs, List.dropLast_concat]
  have key : ∀ (A : List SegPM), (A.getLast?).map corePM =
      some ⟨0 + svTotal (d :: rest) - svDur (lastDesc d rest), 0 + svTotal (d :: rest),
        svDur (lastDesc d rest), (lastDesc d rest).sig, (lastDesc d rest).bpm⟩ →
      (A.getLast?).map (fun s => (s.endTime, s.dur)) =
        some (pmTotal (d :: rest), pmDur (lastDesc d rest)) := by
    intro A hA
    cases hy : A.getLast? with
    | none =>
        rw [hy] at hA
        simp at hA
    | some y =>
        rw [hy] at hA
        simp only [Option.map_some', Option.some.injEq] at hA
        have he : y.endTime = 0 + svTotal (d :: rest) := by
          rw [show y.endTime = (corePM y).endTime from rfl, hA]
        have hd2 : y.dur = svDur (lastDesc d rest) := by
          rw [show y.dur = (corePM y).dur from rfl, hA]
        simp only [Option.map_some', Option.some.injEq]
        rw [he, hd2, zero_add, pmTotal_eq_svTotal, pmDur_eq_svDur]
  exact key _ (by rw [setLastNext_getLast_core, pmAuth_getLast_core])

theorem C1_final_time_witness :
    getSegmentsPM [⟨(4,4),120,1⟩] =
      some ([⟨0,2,2,(4,4),120, PMLink.dummyLink 2 4 2 (4,4) 120⟩,
             ⟨2,4,2,(4,4),120, PMLink.noLink⟩], 4) ∧
    getSegmentsSV [⟨(4,4),120,1⟩] =
      some ([⟨0,2,2,(4,4),120,false⟩, ⟨2,4,2,(4,4),120,true⟩], 4) ∧
    ((4:ℚ) = pmTotal [⟨(4,4),120,1⟩] + pmDur (lastDesc ⟨(4,4),120,1⟩ []) ∧
     (4:ℚ) = svTotal [⟨(4,4),120,1⟩] + svDur (lastDesc ⟨(4,4),120,1⟩ []) ∧
     (([⟨0,2,2,(4,4),120, PMLink.dummyLink 2 4 2 (4,4) 120⟩,
        ⟨2,4,2,(4,4),120, PMLink.noLink⟩] : List SegPM).dropLast.getLast?).map
        (fun s => (s.endTime, s.dur)) =
      some (pmTotal [⟨(4,4),120,1⟩], pmDur (lastDesc ⟨(4,4),120,1⟩ []))) := by
  have hP : getSegmentsPM [⟨(4,4),120,1⟩] =
      some ([⟨0,2,2,(4,4),120, PMLink.dummyLink 2 4 2 (4,4) 120⟩,
             ⟨2,4,2,(4,4),120, PMLink.noLink⟩], 4) := by
    rw [getSegmentsPM_cons]
    norm_num [pmAuth, pmTotal, pmDur, pmBar, lastDesc, setLastNext]
  have hS : getSegmentsSV [⟨(4,4),120,1⟩] =
      some ([⟨0,2,2,(4,4),120,false⟩, ⟨2,4,2,(4,4),120,true⟩], 4) := by
    rw [getSegmentsSV_cons]
    norm_num [svAuth, svTotal, svDur, lastDesc]
  exact ⟨hP, hS, C1_final_time _ _ _ _ _ _ hP hS⟩

/-- Claim C2 is refuted at a concrete input: with descriptors 4/4 then 3/4 at
bpm 120, segment 0 gets a preview whose window is 4*60/120 = 2 (the CURRENT
segment's beat count), not nextBeatsPerBar*60/tempo = 3*60/120 = 3/2 as the
claim states. -/
theorem C2_counterexample :
    getSegmentsPM [⟨(4,4),120,1⟩, ⟨(3,4),120,1⟩] =
      some ([⟨0,2,2,(4,4),120, PMLink.sigInfo (3,4) 120⟩,
             ⟨2,7/2,3/2,(3,4),120, PMLink.dummyLink (7/2) 5 (3/2) (3,4) 120⟩,
             ⟨7/2,5,3/2,(3,4),120, PMLink.noLink⟩], 5) ∧
    nextNextGuardPM [⟨0,2,2,(4,4),120, PMLink.sigInfo (3,4) 120⟩,
             ⟨2,7/2,3/2,(3,4),120, PMLink.dummyLink (7/2) 5 (3/2) (3,4) 120⟩,
             ⟨7/2,5,3/2,(3,4),120, PMLink.noLink⟩] 0 = true ∧
    previewTimesPM ⟨0,2,2,(4,4),120, PMLink.sigInfo (3,4) 120⟩ = (0, 2) ∧
    ((2:ℚ) - 0) ≠ (3 : ℚ) * 60 / 120 := by
  refine ⟨?_, rfl, ?_, by norm_num⟩
  · rw [getSegmentsPM_cons]
    norm_num [pmAuth, pmTotal, pmDur, pmBar, lastDesc, setLastNext]
  · norm_num [previewTimesPM]

/-- Claim C2 (amended): for every segment that gets a transition preview, the
preview window equals CURRENT beatsPerBar * 60 / current tempo (one bar of the
current segment measured with its own beat count), and the preview layer still
ends exactly at the successor segment's start, in both implementations. -/
theorem C2_preview_window (d : Desc) (rest : List Desc) (segs : List SegPM) (ft : ℚ)
    (segsS : List SegSV) (ftS : ℚ) (i : ℕ)
    (hP : getSegmentsPM (d :: rest) = some (segs, ft))
    (hS : getSegmentsSV (d :: rest) = some (segsS, ftS))
    (hi : i + 2 < segs.length) (hiS : i + 2 < segsS.length) :
    (previewTimesPM segs[i]).2 = segs[i+1].start ∧
    (previewTimesPM segs[i]).2 - (previewTimesPM segs[i]).1 =
      (segs[i].sig.1 : ℚ) * 60 / segs[i].bpm ∧
    (previewTimesSV segsS[i] segsS[i+1]).2 = segsS[i+1].start ∧
    (previewTimesSV segsS[i] segsS[i+1]).2 - (previewTimesSV segsS[i] segsS[i+1]).1 =
      (segsS[i].sig.1 : ℚ) * 60 / segsS[i].bpm := by
  refine ⟨?_, ?_, rfl, ?_⟩
  · show segs[i].endTime = segs[i+1].start
    exact segsPM_contig d rest segs ft hP i (by omega)
  · show segs[i].endTime - (segs[i].endTime - (segs[i].sig.1 : ℚ) * 60 / segs[i].bpm) =
      (segs[i].sig.1 : ℚ) * 60 / segs[i].bpm
    ring
  · show segsS[i+1].start - (segsS[i+1].start - (segsS[i].sig.1 : ℚ) * 60 / segsS[i].bpm) =
      (segsS[i].sig.1 : ℚ) * 60 / segsS[i].bpm
    ring

theorem C2_preview_window_witness :
    getSegmentsPM [⟨(4,4),120,1⟩, ⟨(3,4),120,1⟩] =
      some ([⟨0,2,2,(4,4),120, PMLink.sigInfo (3,4) 120⟩,
             ⟨2,7/2,3/2,(3,4),120, PMLink.dummyLink (7/2) 5 (3/2) (3,4) 120⟩,
             ⟨7/2,5,3/2,(3,4),120, PMLink.noLink⟩], 5) ∧
    getSegmentsSV [⟨(4,4),120,1⟩, ⟨(3,4),120,1⟩] =
      some ([⟨0,2,2,(4,4),120,false⟩, ⟨2,7/2,3/2,(3,4),120,false⟩,
             ⟨7/2,5,3/2,(3,4),120,true⟩], 5) ∧
    0 + 2 < ([⟨0,2,2,(4,4),120, PMLink.sigInfo (3,4) 120⟩,
             ⟨2,7/2,3/2,(3,4),120, PMLink.dummyLink (7/2) 5 (3/2) (3,4) 120⟩,
             ⟨7/2,5,3/2,(3,4),120, PMLink.noLink⟩] : List SegPM).length ∧
    0 + 2 < ([⟨0,2,2,(4,4),120,false⟩, ⟨2,7/2,3/2,(3,4),120,false⟩,
             ⟨7/2,5,3/2,(3,4),120,true⟩] : List SegSV).length ∧
    previewTimesPM (⟨0,2,2,(4,4),120, PMLink.sigInfo (3,4) 120⟩ : SegPM) =
      (0, 2) ∧
    ((2:ℚ) - 0 = (4 : ℚ) * 60 / 120) := by
  have hP : getSegmentsPM [⟨(4,4),120,1⟩, ⟨(3,4),120,1⟩] =
      some ([⟨0,2,2,(4,4),120, PMLink.sigInfo (3,4) 120⟩,
             ⟨2,7/2,3/2,(3,4),120, PMLink.dummyLink (7/2) 5 (3/2) (3,4) 120⟩,
             ⟨7/2,5,3/2,(3,4),120, PMLink.noLink⟩], 5) := by
    rw [getSegmentsPM_cons]
    norm_num [pmAuth, pmTotal, pmDur, pmBar, lastDesc, setLastNext]
  have hS : getSegmentsSV [⟨(4,4),120,1⟩, ⟨(3,4),120,1⟩] =
      some ([⟨0,2,2,(4,4),120,false⟩, ⟨2,7/2,3/2,(3,4),120,false⟩,
             ⟨7/2,5,3/2,(3,4),120,true⟩], 5) := by
    rw [getSegmentsSV_cons]
    norm_num [svAuth, svTotal, svDur, lastDesc]
  have happ := C2_preview_window _ _ _ _ _ _ 0 hP hS (by norm_num) (by norm_num)
  refine ⟨hP, hS, by norm_num, by norm_num, ?_, by norm_num⟩
  have := happ.2.1
  norm_num [previewTimesPM]

/-- Claim C3 is refuted at a concrete input: the `_bar_clip` rectangle of a
4/4, bpm 120, 2-bar segment (duration 4) is accent-colored at `t = 5/2`,
although `5/2` is NOT within one beat-duration (1/2) of the segment's end:
the code compares against one full BAR (`sig[0]*60/bpm = 2`), not one beat. -/
theorem C3_counterexample :
    getSegmentsPM [⟨(4,4),120,2⟩, ⟨(4,4),120,1⟩] =
      some ([⟨0,4,4,(4,4),120, PMLink.sigInfo (4,4) 120⟩,
             ⟨4,6,2,(4,4),120, PMLink.dummyLink 6 8 2 (4,4) 120⟩,
             ⟨6,8,2,(4,4),120, PMLink.noLink⟩], 8) ∧
    nextNextGuardPM [⟨0,4,4,(4,4),120, PMLink.sigInfo (4,4) 120⟩,
             ⟨4,6,2,(4,4),120, PMLink.dummyLink 6 8 2 (4,4) 120⟩,
             ⟨6,8,2,(4,4),120, PMLink.noLink⟩] 0 = true ∧
    (0:ℚ) ≤ 5/2 ∧ (5/2:ℚ) < 4 ∧
    barClipColor ⟨0,4,4,(4,4),120, PMLink.sigInfo (4,4) 120⟩ (0,100,255) (5/2) =
      (0,100,255) ∧
    ¬((4:ℚ) - 60/120 < 5/2) ∧
    ((0,100,255) : ℕ × ℕ × ℕ) ≠ (255,255,255) := by
  refine ⟨?_, rfl, by norm_num, by norm_num, ?_, by norm_num, by norm_num⟩
  · rw [getSegmentsPM_cons]
    norm_num [pmAuth, pmTotal, pmDur, pmBar, lastDesc, setLastNext]
  · norm_num [barClipColor]

/-- Claim C3 (amended): the progress rectangle is accent-colored iff `t`
exceeds `segmentDuration - beatsPerBar * beatDuration` — within one BAR (not
one beat) of the segment's end; for an authored segment of `b` bars this means
`t` lies in the final bar. -/
theorem C3_bar_color (s : SegPM) (accent : ℕ × ℕ × ℕ) (t : ℚ) (bars : ℕ)
    (hdur : s.dur = (bars : ℚ) * ((s.sig.1 : ℚ) * 60 / s.bpm))
    (hacc : accent ≠ ((255,255,255) : ℕ × ℕ × ℕ)) :
    barClipColor s accent t = accent ↔
      ((bars : ℚ) - 1) * ((s.sig.1 : ℚ) * 60 / s.bpm) < t := by
  unfold barClipColor
  have hth : s.dur - (s.sig.1 : ℚ) * 60 / s.bpm =
      ((bars : ℚ) - 1) * ((s.sig.1 : ℚ) * 60 / s.bpm) := by
    rw [hdur]
    ring
  rw [hth]
  split_ifs with h
  · exact iff_of_true rfl h
  · exact iff_of_false (fun he => hacc he.symm) h

theorem C3_bar_color_witness :
    ((⟨0,4,4,(4,4),120, PMLink.noLink⟩ : SegPM).dur =
      ((2:ℕ) : ℚ) * (((⟨0,4,4,(4,4),120, PMLink.noLink⟩ : SegPM).sig.1 : ℚ) * 60 /
        (⟨0,4,4,(4,4),120, PMLink.noLink⟩ : SegPM).bpm)) ∧
    ((0,100,255) : ℕ × ℕ × ℕ) ≠ (255,255,255) ∧
    (barClipColor ⟨0,4,4,(4,4),120, PMLink.noLink⟩ (0,100,255) 3 = (0,100,255) ↔
      (((2:ℕ) : ℚ) - 1) * (((4:ℕ) : ℚ) * 60 / 120) < 3) := by
  have h1 : ((⟨0,4,4,(4,4),120, PMLink.noLink⟩ : SegPM).dur =
      ((2:ℕ) : ℚ) * (((⟨0,4,4,(4,4),120, PMLink.noLink⟩ : SegPM).sig.1 : ℚ) * 60 /
        (⟨0,4,4,(4,4),120, PMLink.noLink⟩ : SegPM).bpm)) := by norm_num
  have h2 : ((0,100,255) : ℕ × ℕ × ℕ) ≠ (255,255,255) := by norm_num
  exact ⟨h1, h2, C3_bar_color ⟨0,4,4,(4,4),120, PMLink.noLink⟩ (0,100,255) 3 2 h1 h2⟩

/-- Claim C5 (confirmed): for every non-empty descriptor list, the last
segment of both built timelines is the synthetic terminal bar: in
`signature_visualizer.py` it is the unique one flagged `last = True`; in
`polygonal_metre.py` it is the unique one whose `next` is `None` (which is
what the driver's `last=(segment['next'] == None)` checks); its duration is
`beatsPerBar * 60 / tempo` of the preceding (last authored) segment, it
carries the same signature and tempo as that segment, and it starts at that
segment's end. -/
theorem C5_terminal (d : Desc) (rest : List Desc) (segs : List SegSV) (ft : ℚ)
    (segsP : List SegPM) (ftP : ℚ)
    (hS : getSegmentsSV (d :: rest) = some (segs, ft))
    (hP : getSegmentsPM (d :: rest) = some (segsP, ftP)) :
    segs.getLast? = some ⟨svTotal (d :: rest),
      svTotal (d :: rest) + ((lastDesc d rest).sig.1 : ℚ) * 60 / (lastDesc d rest).bpm,
      ((lastDesc d rest).sig.1 : ℚ) * 60 / (lastDesc d rest).bpm,
      (lastDesc d rest).sig, (lastDesc d rest).bpm, true⟩ ∧
    (∀ s ∈ segs.dropLast, s.last = false) ∧
    (segs.dropLast.getLast?).map (fun s => (s.sig, s.bpm, s.endTime)) =
      some ((lastDesc d rest).sig, (lastDesc d rest).bpm, svTotal (d :: rest)) ∧
    segsP.getLast? = some ⟨pmTotal (d :: rest),
      pmTotal (d :: rest) + pmBar (lastDesc d rest), pmBar (lastDesc d rest),
      (lastDesc d rest).sig, (lastDesc d rest).bpm, PMLink.noLink⟩ ∧
    (∀ s ∈ segsP.dropLast, s.next ≠ PMLink.noLink) := by
  obtain ⟨hsegs, -⟩ := segsSV_parts d rest segs ft hS
  obtain ⟨hsegsP, -⟩ := segsPM_parts d rest segsP ftP hP
  refine ⟨?_, ?_, ?_, ?_, ?_⟩
  · rw [hsegs, List.getLast?_concat]
  · rw [hsegs, List.dropLast_concat]
    exact svAuth_last_false 0 (d :: rest)
  · rw [hsegs, List.dropLast_concat, svAuth_getLast]
    simp
  · rw [hsegsP, List.getLast?_concat]
  · rw [hsegsP, List.dropLast_concat]
    exact bodyPM_next 0 d rest _ (by simp)

theorem C5_terminal_witness :
    getSegmentsSV [⟨(4,4),120,1⟩] =
      some ([⟨0,2,2,(4,4),120,false⟩, ⟨2,4,2,(4,4),120,true⟩], 4) ∧
    getSegmentsPM [⟨(4,4),120,1⟩] =
      some ([⟨0,2,2,(4,4),120, PMLink.dummyLink 2 4 2 (4,4) 120⟩,
             ⟨2,4,2,(4,4),120, PMLink.noLink⟩], 4) ∧
    (([⟨0,2,2,(4,4),120,false⟩, ⟨2,4,2,(4,4),120,true⟩] : List SegSV).getLast? =
      some ⟨svTotal [⟨(4,4),120,1⟩],
        svTotal [⟨(4,4),120,1⟩] +
          ((lastDesc ⟨(4,4),120,1⟩ []).sig.1 : ℚ) * 60 / (lastDesc ⟨(4,4),120,1⟩ []).bpm,
        ((lastDesc ⟨(4,4),120,1⟩ []).sig.1 : ℚ) * 60 / (lastDesc ⟨(4,4),120,1⟩ []).bpm,
        (lastDesc ⟨(4,4),120,1⟩ []).sig, (lastDesc ⟨(4,4),120,1⟩ []).bpm, true⟩ ∧
     (∀ s ∈ ([⟨0,2,2,(4,4),120,false⟩, ⟨2,4,2,(4,4),120,true⟩] : List SegSV).dropLast,
        s.last = false) ∧
     (([⟨0,2,2,(4,4),120,false⟩, ⟨2,4,2,(4,4),120,true⟩] : List SegSV).dropLast.getLast?).map
        (fun s => (s.sig, s.bpm, s.endTime)) =
      some ((lastDesc ⟨(4,4),120,1⟩ []).sig, (lastDesc ⟨(4,4),120,1⟩ []).bpm,
        svTotal [⟨(4,4),120,1⟩]) ∧
     ([⟨0,2,2,(4,4),120, PMLink.dummyLink 2 4 2 (4,4) 120⟩,
       ⟨2,4,2,(4,4),120, PMLink.noLink⟩] : List SegPM).getLast? =
      some ⟨pmTotal [⟨(4,4),120,1⟩],
        pmTotal [⟨(4,4),120,1⟩] + pmBar (lastDesc ⟨(4,4),120,1⟩ []),
        pmBar (lastDesc ⟨(4,4),120,1⟩ []),
        (lastDesc ⟨(4,4),120,1⟩ []).sig, (lastDesc ⟨(4,4),120,1⟩ []).bpm, PMLink.noLink⟩ ∧
     (∀ s ∈ ([⟨0,2,2,(4,4),120, PMLink.dummyLink 2 4 2 (4,4) 120⟩,
        ⟨2,4,2,(4,4),120, PMLink.noLink⟩] : List SegPM).dropLast,
        s.next ≠ PMLink.noLink)) := by
  have hS : getSegmentsSV [⟨(4,4),120,1⟩] =
      some ([⟨0,2,2,(4,4),120,false⟩, ⟨2,4,2,(4,4),120,true⟩], 4) := by
    rw [getSegmentsSV_cons]
    norm_num [svAuth, svTotal, svDur, lastDesc]
  have hP : getSegmentsPM [⟨(4,4),120,1⟩] =
      some ([⟨0,2,2,(4,4),120, PMLink.dummyLink 2 4 2 (4,4) 120⟩,
             ⟨2,4,2,(4,4),120, PMLink.noLink⟩], 4) := by
    rw [getSegmentsPM_cons]
    norm_num [pmAuth, pmTotal, pmDur, pmBar, lastDesc, setLastNext]
  exact ⟨hS, hP, C5_terminal _ _ _ _ _ _ hS hP⟩

/-- Claim C6 (confirmed): for a non-terminal polygon fill renderer with
`1 ≤ fadeBeats ≤ beatsPerBar`, at local time `t = k * beatsPerBar *
beatDuration` for `1 ≤ k < bars` (the start of a non-first bar within the
segment), slice 0 is drawn fully bright (the full accent color, fade fraction
1), the `fadeBeats - 1` slices of indices `beatsPerBar - fadeBeats + 1` up to
`beatsPerBar - 1` are drawn partially faded (fade fraction strictly between 0
and 1), and every other slice is left unfilled. -/
theorem C6_bar_start (beats bars fade k i : ℕ) (bpm : ℚ) (accent : ℕ × ℕ × ℕ)
    (h : 0 < bpm ∧ 1 ≤ beats ∧ 1 ≤ fade ∧ fade ≤ beats ∧ 1 ≤ k ∧ k < bars ∧ i < beats) :
    (i = 0 → sliceFill ⟨beats, bpm, (bars : ℚ) * ((beats : ℚ) * 60 / bpm), accent, false, fade⟩
        ((k : ℚ) * (beats : ℚ) * (60 / bpm)) i =
      some ((accent.1 : ℤ), (accent.2.1 : ℤ), (accent.2.2 : ℤ))) ∧
    (beats - fade < i →
      sliceFill ⟨beats, bpm, (bars : ℚ) * ((beats : ℚ) * 60 / bpm), accent, false, fade⟩
          ((k : ℚ) * (beats : ℚ) * (60 / bpm)) i =
        some (⌊(255:ℚ) * (1 - ((beats - i : ℕ) : ℚ) / (fade : ℚ))⌋,
          ⌊(255:ℚ) * (1 - ((beats - i : ℕ) : ℚ) / (fade : ℚ))⌋,
          ⌊(255:ℚ) * (1 - ((beats - i : ℕ) : ℚ) / (fade : ℚ))⌋) ∧
      0 < 1 - ((beats - i : ℕ) : ℚ) / (fade : ℚ) ∧
      1 - ((beats - i : ℕ) : ℚ) / (fade : ℚ) < 1) ∧
    (0 < i → i ≤ beats - fade →
      sliceFill ⟨beats, bpm, (bars : ℚ) * ((beats : ℚ) * 60 / bpm), accent, false, fade⟩
        ((k : ℚ) * (beats : ℚ) * (60 / bpm)) i = none) := by
  obtain ⟨h1, h2, h3, h4, h5, h6, h7⟩ := h
  exact barStart_sliceFill beats bars fade k i bpm accent h1 h2 h3 h4 h5 h6 h7

theorem C6_bar_start_witness :
    ((0:ℚ) < 120 ∧ 1 ≤ 4 ∧ 1 ≤ 3 ∧ 3 ≤ 4 ∧ 1 ≤ 1 ∧ 1 < 2 ∧ 3 < 4) ∧
    (((3:ℕ) = 0 → sliceFill ⟨4, 120, ((2:ℕ) : ℚ) * (((4:ℕ) : ℚ) * 60 / 120), (0,100,255), false, 3⟩
        (((1:ℕ) : ℚ) * ((4:ℕ) : ℚ) * (60 / 120)) 3 =
      some ((0 : ℤ), (100 : ℤ), (255 : ℤ))) ∧
    (4 - 3 < 3 →
      sliceFill ⟨4, 120, ((2:ℕ) : ℚ) * (((4:ℕ) : ℚ) * 60 / 120), (0,100,255), false, 3⟩
          (((1:ℕ) : ℚ) * ((4:ℕ) : ℚ) * (60 / 120)) 3 =
        some (⌊(255:ℚ) * (1 - ((4 - 3 : ℕ) : ℚ) / ((3:ℕ) : ℚ))⌋,
          ⌊(255:ℚ) * (1 - ((4 - 3 : ℕ) : ℚ) / ((3:ℕ) : ℚ))⌋,
          ⌊(255:ℚ) * (1 - ((4 - 3 : ℕ) : ℚ) / ((3:ℕ) : ℚ))⌋) ∧
      0 < 1 - ((4 - 3 : ℕ) : ℚ) / ((3:ℕ) : ℚ) ∧
      1 - ((4 - 3 : ℕ) : ℚ) / ((3:ℕ) : ℚ) < 1) ∧
    (0 < 3 → (3:ℕ) ≤ 4 - 3 →
      sliceFill ⟨4, 120, ((2:ℕ) : ℚ) * (((4:ℕ) : ℚ) * 60 / 120), (0,100,255), false, 3⟩
        (((1:ℕ) : ℚ) * ((4:ℕ) : ℚ) * (60 / 120)) 3 = none)) :=
  ⟨by norm_num, C6_bar_start 4 2 3 1 3 120 (0,100,255) (by norm_num)⟩

/-- Claim C7 (confirmed): for every timeline built from a non-empty descriptor
list, the "next signature" text, transition-preview and progress-indicator
layers are produced exactly for the segments with at least two successors:
produced for every index `i` with `i + 2 < length`, suppressed for the
second-to-last (the last authored) and the last (terminal) segment, in both
implementations. -/
theorem C7_suppression (d : Desc) (rest : List Desc) (segs : List SegPM) (ft : ℚ)
    (segsS : List SegSV) (ftS : ℚ) (i : ℕ)
    (hP : getSegmentsPM (d :: rest) = some (segs, ft))
    (hS : getSegmentsSV (d :: rest) = some (segsS, ftS)) :
    (nextNextGuardPM segs i = true ↔ i + 2 < segs.length) ∧
    (nextGuardSV segsS i = true ↔ i + 2 < segsS.length) :=
  ⟨guardPM_iff d rest segs ft hP i, guardSV_iff d rest segsS ftS hS i⟩

theorem C7_suppression_witness :
    getSegmentsPM [⟨(4,4),120,1⟩, ⟨(3,4),120,1⟩] =
      some ([⟨0,2,2,(4,4),120, PMLink.sigInfo (3,4) 120⟩,
             ⟨2,7/2,3/2,(3,4),120, PMLink.dummyLink (7/2) 5 (3/2) (3,4) 120⟩,
             ⟨7/2,5,3/2,(3,4),120, PMLink.noLink⟩], 5) ∧
    getSegmentsSV [⟨(4,4),120,1⟩, ⟨(3,4),120,1⟩] =
      some ([⟨0,2,2,(4,4),120,false⟩, ⟨2,7/2,3/2,(3,4),120,false⟩,
             ⟨7/2,5,3/2,(3,4),120,true⟩], 5) ∧
    ((nextNextGuardPM [⟨0,2,2,(4,4),120, PMLink.sigInfo (3,4) 120⟩,
             ⟨2,7/2,3/2,(3,4),120, PMLink.dummyLink (7/2) 5 (3/2) (3,4) 120⟩,
             ⟨7/2,5,3/2,(3,4),120, PMLink.noLink⟩] 0 = true ↔
        0 + 2 < ([⟨0,2,2,(4,4),120, PMLink.sigInfo (3,4) 120⟩,
             ⟨2,7/2,3/2,(3,4),120, PMLink.dummyLink (7/2) 5 (3/2) (3,4) 120⟩,
             ⟨7/2,5,3/2,(3,4),120, PMLink.noLink⟩] : List SegPM).length) ∧
     (nextGuardSV [⟨0,2,2,(4,4),120,false⟩, ⟨2,7/2,3/2,(3,4),120,false⟩,
             ⟨7/2,5,3/2,(3,4),120,true⟩] 0 = true ↔
        0 + 2 < ([⟨0,2,2,(4,4),120,false⟩, ⟨2,7/2,3/2,(3,4),120,false⟩,
             ⟨7/2,5,3/2,(3,4),120,true⟩] : List SegSV).length)) := by
  have hP : getSegmentsPM [⟨(4,4),120,1⟩, ⟨(3,4),120,1⟩] =
      some ([⟨0,2,2,(4,4),120, PMLink.sigInfo (3,4) 120⟩,
             ⟨2,7/2,3/2,(3,4),120, PMLink.dummyLink (7/2) 5 (3/2) (3,4) 120⟩,
             ⟨7/2,5,3/2,(3,4),120, PMLink.noLink⟩], 5) := by
    rw [getSegmentsPM_cons]
    norm_num [pmAuth, pmTotal, pmDur, pmBar, lastDesc, setLastNext]
  have hS : getSegmentsSV [⟨(4,4),120,1⟩, ⟨(3,4),120,1⟩] =
      some ([⟨0,2,2,(4,4),120,false⟩, ⟨2,7/2,3/2,(3,4),120,false⟩,
             ⟨7/2,5,3/2,(3,4),120,true⟩], 5) := by
    rw [getSegmentsSV_cons]
    norm_num [svAuth, svTotal, svDur, lastDesc]
  exact ⟨hP, hS, C7_suppression _ _ _ _ _ _ 0 hP hS⟩

/-- Claim C8 is refuted at a concrete input: with beatsPerBar 4, bpm 120,
fadeBeats 3, at `t = 2/3` slice 1 has `beatsAgo = 1/3`, fade fraction
`x = 8/9`, and `255 * x = 226.66...`; the code's `int(255*x)` truncates to
brightness 226, while rounding to the nearest integer as claimed would give
227. -/
theorem C8_counterexample :
    sliceFill ⟨4, 120, 4, (0,100,255), false, 3⟩ (2/3) 1 = some (226, 226, 226) ∧
    sliceAgo ⟨4, 120, 4, (0,100,255), false, 3⟩ (2/3) 1 = 1/3 ∧
    round ((255:ℚ) * (1 - (1/3) / 3)) = 227 ∧
    (226 : ℤ) ≠ 227 := by
  refine ⟨?_, ?_, by norm_num [round_eq], by norm_num⟩
  · norm_num [sliceFill, sliceAgo, beatPhase, beatPos, beatDuration, qmod, pyInt]
  · norm_num [sliceAgo, beatPhase, beatPos, beatDuration, qmod]

/-- Claim C8 (amended): for every drawn, non-terminal slice the wrapped
`beatsAgo` lies in `[0, fadeBeats)` and the brightness is the TRUNCATION
(floor, the operands being nonnegative) of `255 * x` with
`x = 1 - beatsAgo/fadeBeats` — not the nearest-integer rounding; the grayscale
color repeats that brightness, and slice 0 instead floors each accent channel
scaled by `x`. -/
theorem C8_brightness (p : FillParams) (t : ℚ) (i : ℕ) (c : ℤ × ℤ × ℤ)
    (h : p.last = false ∧ 1 ≤ p.beatsPerBar ∧ 1 ≤ p.fadeBeats ∧ i < p.beatsPerBar ∧
      sliceFill p t i = some c) :
    0 ≤ sliceAgo p t i ∧ sliceAgo p t i < (p.fadeBeats : ℚ) ∧
    (i ≠ 0 → c = (⌊(255 : ℚ) * (1 - sliceAgo p t i / (p.fadeBeats : ℚ))⌋,
       ⌊(255 : ℚ) * (1 - sliceAgo p t i / (p.fadeBeats : ℚ))⌋,
       ⌊(255 : ℚ) * (1 - sliceAgo p t i / (p.fadeBeats : ℚ))⌋)) ∧
    (i = 0 → c = (⌊(p.accentColor.1 : ℚ) * (1 - sliceAgo p t i / (p.fadeBeats : ℚ))⌋,
       ⌊(p.accentColor.2.1 : ℚ) * (1 - sliceAgo p t i / (p.fadeBeats : ℚ))⌋,
       ⌊(p.accentColor.2.2 : ℚ) * (1 - sliceAgo p t i / (p.fadeBeats : ℚ))⌋)) := by
  obtain ⟨h1, h2, h3, h4, h5⟩ := h
  exact sliceFill_some_inv p t i c h1 h2 h3 h4 h5

theorem C8_brightness_witness :
    ((⟨4, 120, 4, (0,100,255), false, 3⟩ : FillParams).last = false ∧
     1 ≤ (⟨4, 120, 4, (0,100,255), false, 3⟩ : FillParams).beatsPerBar ∧
     1 ≤ (⟨4, 120, 4, (0,100,255), false, 3⟩ : FillParams).fadeBeats ∧
     1 < (⟨4, 120, 4, (0,100,255), false, 3⟩ : FillParams).beatsPerBar ∧
     sliceFill ⟨4, 120, 4, (0,100,255), false, 3⟩ (2/3) 1 = some (226, 226, 226)) ∧
    (0 ≤ sliceAgo ⟨4, 120, 4, (0,100,255), false, 3⟩ (2/3) 1 ∧
     sliceAgo ⟨4, 120, 4, (0,100,255), false, 3⟩ (2/3) 1 <
       ((⟨4, 120, 4, (0,100,255), false, 3⟩ : FillParams).fadeBeats : ℚ) ∧
     ((1:ℕ) ≠ 0 → (226, 226, 226) =
       ((⌊(255 : ℚ) * (1 - sliceAgo ⟨4, 120, 4, (0,100,255), false, 3⟩ (2/3) 1 /
          ((⟨4, 120, 4, (0,100,255), false, 3⟩ : FillParams).fadeBeats : ℚ))⌋ : ℤ),
        ⌊(255 : ℚ) * (1 - sliceAgo ⟨4, 120, 4, (0,100,255), false, 3⟩ (2/3) 1 /
          ((⟨4, 120, 4, (0,100,255), false, 3⟩ : FillParams).fadeBeats : ℚ))⌋,
        ⌊(255 : ℚ) * (1 - sliceAgo ⟨4, 120, 4, (0,100,255), false, 3⟩ (2/3) 1 /
          ((⟨4, 120, 4, (0,100,255), false, 3⟩ : FillParams).fadeBeats : ℚ))⌋)) ∧
     ((1:ℕ) = 0 → (226, 226, 226) =
       ((⌊((⟨4, 120, 4, (0,100,255), false, 3⟩ : FillParams).accentColor.1 : ℚ) *
          (1 - sliceAgo ⟨4, 120, 4, (0,100,255), false, 3⟩ (2/3) 1 /
          ((⟨4, 120, 4, (0,100,255), false, 3⟩ : FillParams).fadeBeats : ℚ))⌋ : ℤ),
        ⌊((⟨4, 120, 4, (0,100,255), false, 3⟩ : FillParams).accentColor.2.1 : ℚ) *
          (1 - sliceAgo ⟨4, 120, 4, (0,100,255), false, 3⟩ (2/3) 1 /
          ((⟨4, 120, 4, (0,100,255), false, 3⟩ : FillParams).fadeBeats : ℚ))⌋,
        ⌊((⟨4, 120, 4, (0,100,255), false, 3⟩ : FillParams).accentColor.2.2 : ℚ) *
          (1 - sliceAgo ⟨4, 120, 4, (0,100,255), false, 3⟩ (2/3) 1 /
          ((⟨4, 120, 4, (0,100,255), false, 3⟩ : FillParams).fadeBeats : ℚ))⌋))) := by
  have hfill : sliceFill ⟨4, 120, 4, (0,100,255), false, 3⟩ (2/3) 1 = some (226, 226, 226) := by
    norm_num [sliceFill, sliceAgo, beatPhase, beatPos, beatDuration, qmod, pyInt]
  have hb : ((⟨4, 120, 4, (0,100,255), false, 3⟩ : FillParams).last = false ∧
      1 ≤ (⟨4, 120, 4, (0,100,255), false, 3⟩ : FillParams).beatsPerBar ∧
      1 ≤ (⟨4, 120, 4, (0,100,255), false, 3⟩ : FillParams).fadeBeats ∧
      1 < (⟨4, 120, 4, (0,100,255), false, 3⟩ : FillParams).beatsPerBar ∧
      sliceFill ⟨4, 120, 4, (0,100,255), false, 3⟩ (2/3) 1 = some (226, 226, 226)) :=
    ⟨rfl, by norm_num, by norm_num, by norm_num, hfill⟩
  exact ⟨hb, C8_brightness _ _ _ _ hb⟩

end PolygonMetre
